import Mathlib

/-!
Verification development for the tap-iterable extraction connector
(`tap_iterable/pagination.py`, `tap_iterable/client.py`,
`tap_iterable/streams.py`).

The Python code is shallowly embedded: timestamps, intervals and the
wall clock are integers (an arbitrary fixed time unit); JSON scalar
values are the inductive `JVal`; Python dicts are association lists
over `String` keys; strings processed character-by-character are
`List Char` (the data of the ASCII CSV/JSONL payloads the tap
handles).  Every embedded function is computable and total; a Python
code path that raises is modelled by an explicit error value, and a
code path whose exceptions are caught in the source is embedded with
the handler inlined.
-/

/-- JSON scalar values as they appear in decoded records.  Arrays and
objects do not occur in any of the verified code paths, so the value
domain is restricted to scalars. -/
inductive JVal where
  | null : JVal
  | bool : Bool → JVal
  | int : ℤ → JVal
  | float : ℚ → JVal
  | str : String → JVal
deriving DecidableEq

/-- Python truthiness of a `JVal` (used by `if not value` / walrus guards). -/
def JVal.truthy : JVal → Bool
  | .null => false
  | .bool b => b
  | .int n => decide (n ≠ 0)
  | .float q => decide (q ≠ 0)
  | .str s => !s.isEmpty

/-- Dict read, `row.get(k)`: value of the first binding of `k`. -/
def getv (row : List (String × JVal)) (k : String) : Option JVal :=
  (row.find? (fun p => p.1 == k)).map (fun p => p.2)

/-- Dict write, `row[k] = v`: replaces the binding when the key is
present (keeping insertion order, as Python dicts do) and appends a
new binding otherwise. -/
def set_item (row : List (String × JVal)) (k : String) (v : JVal) :
    List (String × JVal) :=
  if (row.find? (fun p => p.1 == k)).isSome then
    row.map (fun p => if p.1 == k then (k, v) else p)
  else row ++ [(k, v)]

/-!  ## Cursor paginator (`tap_iterable/pagination.py`)

`DateTimeIntervalPaginator` over integer timestamps: `interval` is the
configured `timedelta`, `now` the wall clock read by
`datetime.now(tz=timezone.utc)` (a parameter of the embedding), and a
cursor is a pair `(start, Option end)` mirroring
`DateTimeIntervalTokenType`. -/

/-- `DateTimeIntervalPaginator._get_date_range`. -/
def get_date_range (interval now start : ℤ) : ℤ × Option ℤ :=
  (start, if start + interval < now then some (start + interval) else none)

/-- `DateTimeIntervalPaginator.get_next`; the `response` argument is
ignored by the source just as it is here. -/
def get_next (interval now : ℤ) (_response : List JVal)
    (cur : ℤ × Option ℤ) : Option (ℤ × Option ℤ) :=
  match cur.2 with
  | none => none
  | some e => some (get_date_range interval now e)

/-- `DateTimeIntervalPaginator.continue_if_empty`: always `True`. -/
def continue_if_empty (_response : List JVal) : Bool :=
  true

/-- The cursor after `n` applications of `get_next`, starting from the
initial cursor `_get_date_range(start)`; `f n` is the API response fed
to the `n`-th `get_next` call; `none` means pagination has stopped. -/
def iterCursor (interval now start : ℤ) (f : ℕ → List JVal) :
    ℕ → Option (ℤ × Option ℤ)
  | 0 => some (get_date_range interval now start)
  | n + 1 =>
    match iterCursor interval now start f n with
    | none => none
    | some c => get_next interval now (f n) c

theorem iterCursor_succ_none (interval now start : ℤ) (f : ℕ → List JVal)
    (n : ℕ) (h : iterCursor interval now start f n = none) :
    iterCursor interval now start f (n + 1) = none := by
  simp [iterCursor, h]

theorem iterCursor_shape (interval now start : ℤ) (f : ℕ → List JVal) :
    ∀ (n : ℕ) (s : ℤ) (o : Option ℤ),
      iterCursor interval now start f n = some (s, o) →
      s = start + n * interval ∧
        o = if start + (n + 1) * interval < now
            then some (start + (n + 1) * interval) else none := by
  intro n
  induction n with
  | zero =>
    intro s o h
    simp only [iterCursor, get_date_range, Option.some.injEq, Prod.mk.injEq] at h
    constructor
    · omega
    · rw [← h.2]
      norm_num
  | succ n ih =>
    intro s o h
    simp only [iterCursor] at h
    cases hn : iterCursor interval now start f n with
    | none => rw [hn] at h; simp at h
    | some c =>
      rw [hn] at h
      obtain ⟨s₀, o₀⟩ := c
      obtain ⟨hs₀, ho₀⟩ := ih s₀ o₀ hn
      simp only [get_next] at h
      cases o₀ with
      | none => simp at h
      | some e =>
        by_cases hc : start + (↑n + 1) * interval < now
        · rw [if_pos hc] at ho₀
          have he : e = start + (↑n + 1) * interval := by
            exact (Option.some.injEq _ _).mp ho₀
          simp only [Option.some.injEq, get_date_range, Prod.mk.injEq] at h
          obtain ⟨hs', ho'⟩ := h
          have h1 : e = start + ↑(n + 1) * interval := by
            rw [he]; push_cast; ring
          rw [← hs', ← ho', h1]
          refine ⟨rfl, ?_⟩
          have h3 : start + (↑(n + 1) : ℤ) * interval + interval =
              start + ((↑(n + 1) : ℤ) + 1) * interval := by ring
          rw [h3]
        · rw [if_neg hc] at ho₀
          simp at ho₀

/-- C2: for every positive interval length the paginator's next-cursor
step terminates after finitely many steps, consecutive cursors satisfy
end = start_next, the cursor sequence does not depend on the response
contents (so an empty page never stops it), and `continue_if_empty` is
identically true. -/
theorem pagination_terminates_spec (interval now start : ℤ)
    (hpos : 0 < interval) :
    (∀ f : ℕ → List JVal, ∃ n, iterCursor interval now start f n = none) ∧
    (∀ (f : ℕ → List JVal) (n : ℕ) (s e s' : ℤ) (o : Option ℤ),
      iterCursor interval now start f n = some (s, some e) →
      iterCursor interval now start f (n + 1) = some (s', o) → s' = e) ∧
    (∀ (f g : ℕ → List JVal) (n : ℕ),
      iterCursor interval now start f n = iterCursor interval now start g n) ∧
    (∀ response : List JVal, continue_if_empty response = true) := by
  refine ⟨?_, ?_, ?_, fun _ => rfl⟩
  · intro f
    refine ⟨(now - start).toNat + 1, ?_⟩
    cases hk : iterCursor interval now start f (now - start).toNat with
    | none => exact iterCursor_succ_none _ _ _ _ _ hk
    | some c =>
      obtain ⟨s, o⟩ := c
      obtain ⟨hs, ho⟩ := iterCursor_shape interval now start f _ s o hk
      have hbig : ¬ start + ((now - start).toNat + 1) * interval < now := by
        have h1 : (now - start : ℤ) ≤ ((now - start).toNat : ℤ) :=
          Int.self_le_toNat _
        have h2 : ((now - start).toNat + 1 : ℤ) * 1 ≤
            ((now - start).toNat + 1 : ℤ) * interval := by
          apply mul_le_mul_of_nonneg_left (by omega) (by omega)
        push_cast at h2 ⊢
        omega
      rw [if_neg hbig] at ho
      subst ho
      simp [iterCursor, hk, get_next]
  · intro f n s e s' o h1 h2
    simp only [iterCursor, h1, get_next] at h2
    simp only [get_date_range, Option.some.injEq, Prod.mk.injEq] at h2
    exact h2.1.symm
  · intro f g n
    induction n with
    | zero => rfl
    | succ n ih =>
      simp only [iterCursor, ih]
      cases iterCursor interval now start g n with
      | none => rfl
      | some c => cases c with
        | mk s o => cases o <;> rfl

/-- Witness for C2 at interval 1, now 5, start 0. -/
theorem pagination_terminates_spec_witness :
    (0 : ℤ) < 1 ∧ ∃ n, iterCursor 1 5 0 (fun _ => []) n = none :=
  ⟨by decide, (pagination_terminates_spec 1 5 0 (by decide)).1 (fun _ => [])⟩

/-- C1: the initial cursor for a start timestamp is (start, start + Δ),
with the end component `None` exactly when start + Δ is not strictly
earlier than the wall clock; `get_next` on a cursor with a concrete
end produces the interval starting at that end, and on a cursor whose
end is `None` it signals termination. -/
theorem pagination_interval_spec (interval now start : ℤ) :
    (get_date_range interval now start).1 = start ∧
    ((get_date_range interval now start).2 = some (start + interval) ↔
      start + interval < now) ∧
    ((get_date_range interval now start).2 = none ↔
      ¬ start + interval < now) ∧
    (∀ (response : List JVal) (s e : ℤ),
      get_next interval now response (s, some e) =
        some (get_date_range interval now e) ∧
      (get_date_range interval now e).1 = e) ∧
    (∀ (response : List JVal) (s : ℤ),
      get_next interval now response (s, none) = none) := by
  refine ⟨rfl, ?_, ?_, fun _ _ _ => ⟨rfl, rfl⟩, fun _ _ => rfl⟩
  · simp only [get_date_range]
    split <;> simp_all
  · simp only [get_date_range]
    split <;> simp_all

/-!  ## Export stream post-processing (`streams.py`, `_ExportStream.post_process`) -/

/-- The check `row.get(k) is None`: true when the key is absent or its
value is JSON null (decoded to Python `None`). -/
def isNoneVal (row : List (String × JVal)) (k : String) : Bool :=
  match getv row k with
  | none => true
  | some .null => true
  | some _ => false

/-- `_ExportStream.post_process`.  Returns the propagated record (or
`none` for a dropped one) together with the list of warnings logged,
each warning carrying the offending key names.  `loads` stands for
`json.loads` applied to the `transactionalData` field, abstracted as a
total function of the stored value. -/
def export_post_process (pks : List String) (loads : JVal → JVal)
    (row : List (String × JVal)) :
    Option (List (String × JVal)) × List (List String) :=
  let bad_keys := pks.filter (fun k => isNoneVal row k)
  if pks ≠ [] ∧ bad_keys ≠ [] then
    (none, [bad_keys])
  else
    match getv row "transactionalData" with
    | some v =>
      if v.truthy then (some (set_item row "transactionalData" (loads v)), [])
      else (some row, [])
    | none => (some row, [])

/-- C3: a record with a missing or null declared primary-key field is
dropped with exactly one warning naming the offending fields, and a
record whose declared primary-key fields are all present and non-null
is propagated (with no warning). -/
theorem export_primary_key_gate_spec (pks : List String)
    (loads : JVal → JVal) (row : List (String × JVal)) :
    ((∃ k, k ∈ pks ∧ isNoneVal row k = true) →
      export_post_process pks loads row =
        (none, [pks.filter (fun k => isNoneVal row k)]) ∧
      pks.filter (fun k => isNoneVal row k) ≠ []) ∧
    ((∀ k, k ∈ pks → isNoneVal row k = false) →
      ∃ r, export_post_process pks loads row = (some r, [])) := by
  constructor
  · rintro ⟨k, hk, hnone⟩
    have hbad : pks.filter (fun k => isNoneVal row k) ≠ [] := by
      intro hnil
      rw [List.filter_eq_nil_iff] at hnil
      exact absurd hnone (by simpa using hnil k hk)
    have hpks : pks ≠ [] := by rintro rfl; simp at hk
    refine ⟨?_, hbad⟩
    unfold export_post_process
    rw [if_pos ⟨hpks, hbad⟩]
  · intro hall
    have hbad : pks.filter (fun k => isNoneVal row k) = [] := by
      rw [List.filter_eq_nil_iff]
      intro a ha
      simp [hall a ha]
    unfold export_post_process
    rw [hbad]
    rw [if_neg (by simp)]
    cases hg : getv row "transactionalData" with
    | none => exact ⟨row, rfl⟩
    | some v =>
      by_cases hv : v.truthy
      · exact ⟨set_item row "transactionalData" (loads v), by simp [hv]⟩
      · exact ⟨row, by simp [hv]⟩

/-- Witness for C3: the drop branch at a record whose primary key `id`
is null, and the propagate branch at a record whose key is present. -/
theorem export_primary_key_gate_spec_witness :
    export_post_process ["id"] (fun v => v) [("id", JVal.null)] =
      (none, [["id"]]) ∧
    ∃ r, export_post_process ["id"] (fun v => v) [("id", JVal.int 3)] =
      (some r, []) := by
  constructor
  · have h := (export_primary_key_gate_spec ["id"] (fun v => v)
      [("id", JVal.null)]).1 ⟨"id", by simp, by decide⟩
    simpa using h.1
  · exact (export_primary_key_gate_spec ["id"] (fun v => v)
      [("id", JVal.int 3)]).2 (by decide)

/-!  ## Spooled line-delimited JSON decoding
(`streams.py`, `_ExportStream.parse_response`)

The response body is written to a temporary file in fixed-size chunks
(`response.iter_content(1024**2)`), then the file is read back line by
line and each line is parsed (`json.loads` abstracted as `loads`). -/

/-- Splits a byte/character stream into chunks of `sz` characters, as
`iter_content` does; a chunk size of zero degenerates to a single
chunk. -/
def chunksOf (sz : ℕ) (l : List Char) : List (List Char) :=
  if l = [] then []
  else if sz = 0 then [l]
  else l.take sz :: chunksOf sz (l.drop sz)
termination_by l.length
decreasing_by
  rw [List.length_drop]
  have : l.length ≠ 0 := fun hz => by
    simp_all [List.eq_nil_of_length_eq_zero hz]
  omega

theorem join_chunksOf (sz : ℕ) (l : List Char) :
    (chunksOf sz l).flatten = l := by
  induction l using chunksOf.induct sz with
  | case1 => rw [chunksOf]; simp
  | case2 l h1 h2 => rw [chunksOf, if_neg h1, if_pos h2]; simp
  | case3 l h1 h2 ih =>
    rw [chunksOf, if_neg h1, if_neg h2]
    simp [ih]

/-- Splits text into lines the way iterating over a Python text file
does: each line keeps its trailing newline, and a final fragment
without a newline is still a line. -/
def pyLinesAux (acc : List Char) : List Char → List (List Char)
  | [] => if acc = [] then [] else [acc.reverse]
  | c :: cs =>
    if c = '\n' then (acc.reverse ++ ['\n']) :: pyLinesAux [] cs
    else pyLinesAux (c :: acc) cs

def pyLines (l : List Char) : List (List Char) :=
  pyLinesAux [] l

/-- `_ExportStream.parse_response`: spool the body to a file in
`chunkSize`-character chunks, then parse the file back line by line. -/
def export_parse_response (loads : List Char → JVal) (chunkSize : ℕ)
    (body : List Char) : List JVal :=
  (pyLines ((chunksOf chunkSize body).flatten)).map loads

/-- C8: the spooled decoder yields exactly the records of the body's
lines, in file order, independently of where the chunk boundaries
fall; in particular a body with N lines yields N records. -/
theorem spooled_decoder_spec (loads : List Char → JVal) (chunkSize : ℕ)
    (body : List Char) (_hsz : 0 < chunkSize) :
    export_parse_response loads chunkSize body = (pyLines body).map loads ∧
    (export_parse_response loads chunkSize body).length =
      (pyLines body).length := by
  unfold export_parse_response
  rw [join_chunksOf]
  exact ⟨rfl, by rw [List.length_map]⟩

/-- Witness for C8: a two-line body spooled in 1-character chunks. -/
theorem spooled_decoder_spec_witness :
    0 < 1 ∧
    export_parse_response (fun _ => JVal.null) 1 ("a\nb".toList) =
      (pyLines ("a\nb".toList)).map (fun _ => JVal.null) :=
  ⟨by decide,
    (spooled_decoder_spec (fun _ => JVal.null) 1 ("a\nb".toList) (by decide)).1⟩

/-!  ## Bounded aggregation buffer and the campaigns stream
(`streams.py`, `CampaignsStream`) -/

/-- Modelled from the spec: `BufferDeque` is imported from the package
root (`tap_iterable/__init__.py`), a file not among the provided
sources.  Following spec sections 3 and 4.4: an ordered identifier
sequence bounded by a fixed capacity, with a flush condition that is
true exactly when the buffer is full or has been finalized, a
`finalize` marking end of input, and a read that hands over the
current contents and clears them. -/
structure BufferDeque where
  items : List ℤ
  maxlen : ℕ
  finalized : Bool
deriving DecidableEq

/-- Modelled from the spec: append adds to the tail. -/
def BufferDeque.append (b : BufferDeque) (x : ℤ) : BufferDeque :=
  { b with items := b.items ++ [x] }

/-- Modelled from the spec: the flush condition — full or finalized. -/
def BufferDeque.flush (b : BufferDeque) : Bool :=
  decide (b.maxlen ≤ b.items.length) || b.finalized

/-- Modelled from the spec: mark the buffer so `flush` becomes true
even when it is not yet full. -/
def BufferDeque.finalize (b : BufferDeque) : BufferDeque :=
  { b with finalized := true }

/-- Modelled from the spec: hand the current contents to the caller
and clear them, beginning a new batch. -/
def BufferDeque.read (b : BufferDeque) : List ℤ × BufferDeque :=
  (b.items, { b with items := [] })

/-- One identifier arriving from a parent record, as in
`CampaignsStream.generate_child_contexts`: append, then flush a batch
if the flush condition holds. -/
def bufferStep (st : BufferDeque × List (List ℤ)) (x : ℤ) :
    BufferDeque × List (List ℤ) :=
  let b := st.1.append x
  if b.flush then
    let (batch, b') := b.read
    (b', st.2 ++ [batch])
  else (b, st.2)

/-- Appends all identifiers, then finalizes and drains the remainder,
returning the flushed batches in order. -/
def runBufferScenario (cap : ℕ) (ids : List ℤ) : List (List ℤ) :=
  let st := ids.foldl bufferStep (⟨[], cap, false⟩, [])
  let b := st.1.finalize
  if b.flush then st.2 ++ [(b.read).1] else st.2

/-- C9: with capacity 3, appending 1..5 and finalizing flushes exactly
the batches [1,2,3] and [4,5]; finalize makes the flush condition true
for any buffer, and a read hands over the contents and clears them. -/
theorem buffer_scenario_spec :
    runBufferScenario 3 [1, 2, 3, 4, 5] = [[1, 2, 3], [4, 5]] ∧
    (∀ b : BufferDeque, (BufferDeque.finalize b).flush = true) ∧
    (∀ b : BufferDeque,
      BufferDeque.read b = (b.items, { b with items := [] })) := by
  refine ⟨by decide, fun b => ?_, fun b => rfl⟩
  simp [BufferDeque.finalize, BufferDeque.flush]

/-- `CampaignsStream.parse_response`: re-yields all records of the
decoded response, finalizes the identifier buffer, then executes
`yield record` once more — referencing the loop variable, which is
unbound when the response held no records (an `UnboundLocalError`,
modelled as the error case). -/
def campaigns_parse_response (b : BufferDeque) (records : List JVal) :
    Except Unit (List JVal) × BufferDeque :=
  match records.getLast? with
  | some last => (Except.ok (records ++ [last]), b.finalize)
  | none => (Except.error (), b.finalize)

/-- C10: a non-empty decoded response of N records yields N + 1
records with the last one duplicated at the end, and an empty response
raises instead of yielding nothing. -/
theorem campaigns_duplicate_last_spec (b : BufferDeque)
    (records : List JVal) :
    (records ≠ [] →
      ∃ last, records.getLast? = some last ∧
        campaigns_parse_response b records =
          (Except.ok (records ++ [last]), b.finalize) ∧
        (records ++ [last]).length = records.length + 1 ∧
        (records ++ [last]).getLast? = some last) ∧
    (records = [] →
      campaigns_parse_response b records = (Except.error (), b.finalize)) := by
  constructor
  · intro hne
    cases hg : records.getLast? with
    | none => exact absurd (List.getLast?_eq_none_iff.mp hg) hne
    | some last =>
      refine ⟨last, rfl, ?_, by simp, by simp⟩
      unfold campaigns_parse_response
      rw [hg]
  · rintro rfl
    rfl

/-- Witness for C10: a single-record response yields the record twice,
and the empty response errors. -/
theorem campaigns_duplicate_last_spec_witness :
    ([JVal.int 7] ≠ ([] : List JVal)) ∧
    (∃ last, ([JVal.int 7] : List JVal).getLast? = some last ∧
      campaigns_parse_response ⟨[], 400, false⟩ [JVal.int 7] =
        (Except.ok ([JVal.int 7] ++ [last]), BufferDeque.finalize ⟨[], 400, false⟩) ∧
      (([JVal.int 7] : List JVal) ++ [last]).length = [JVal.int 7].length + 1 ∧
      (([JVal.int 7] : List JVal) ++ [last]).getLast? = some last) ∧
    campaigns_parse_response ⟨[], 400, false⟩ [] =
      (Except.error (), BufferDeque.finalize ⟨[], 400, false⟩) :=
  ⟨by decide,
    (campaigns_duplicate_last_spec ⟨[], 400, false⟩ [JVal.int 7]).1 (by decide),
    (campaigns_duplicate_last_spec ⟨[], 400, false⟩ []).2 rfl⟩

/-!  ## Client-level date-time coercion
(`client.py`, `IterableStream.post_process`)

For every schema property declared with format date-time, an integer
value is read as milliseconds since the epoch and replaced by
`datetime.fromtimestamp(value / 1000, tz=timezone.utc).isoformat()`;
falsy values are skipped; any other truthy value is written back
unchanged. -/

def digitChar (n : ℕ) : Char := Char.ofNat (48 + n)

/-- Fixed-width zero-padded decimal fields, as `isoformat` prints
them (`%02d`). -/
def pad2 (n : ℕ) : List Char := [digitChar (n / 10 % 10), digitChar (n % 10)]

/-- The `%04d` year field of `isoformat` (datetime years are 1..9999). -/
def pad4 (n : ℕ) : List Char :=
  [digitChar (n / 1000 % 10), digitChar (n / 100 % 10),
   digitChar (n / 10 % 10), digitChar (n % 10)]

/-- The `%06d` microsecond field of `isoformat`. -/
def pad6 (n : ℕ) : List Char :=
  [digitChar (n / 100000 % 10), digitChar (n / 10000 % 10),
   digitChar (n / 1000 % 10), digitChar (n / 100 % 10),
   digitChar (n / 10 % 10), digitChar (n % 10)]

/-- Proleptic Gregorian date for a count of days since 1970-01-01
(the civil-from-days algorithm used by every epoch-to-date
conversion). -/
def civilFromDays (z : ℤ) : ℤ × ℕ × ℕ :=
  let zs := z + 719468
  let era := Int.fdiv zs 146097
  let doe := (zs - era * 146097).toNat
  let yoe := (doe - doe / 1460 + doe / 36524 - doe / 146096) / 365
  let y := (yoe : ℤ) + era * 400
  let doy := doe - (365 * yoe + yoe / 4 - yoe / 100)
  let mp := (5 * doy + 2) / 153
  let d := doy - (153 * mp + 2) / 5 + 1
  let m := if mp < 10 then mp + 3 else mp - 9
  (if m ≤ 2 then y + 1 else y, m, d)

/-- `datetime.fromtimestamp(ms / 1000, tz=timezone.utc).isoformat()`
for an integer millisecond timestamp: seconds and microseconds are
exact (`ms / 1000` loses nothing for the magnitudes involved), and the
microsecond part is printed only when non-zero, as `isoformat` does. -/
def isoOfMillis (ms : ℤ) : String :=
  let totalUs := ms * 1000
  let secs := Int.fdiv totalUs 1000000
  let us := (Int.fmod totalUs 1000000).toNat
  let days := Int.fdiv secs 86400
  let sod := (Int.fmod secs 86400).toNat
  let ymd := civilFromDays days
  String.mk (pad4 ymd.1.toNat ++ ['-'] ++ pad2 ymd.2.1 ++ ['-'] ++ pad2 ymd.2.2 ++
    ['T'] ++ pad2 (sod / 3600) ++ [':'] ++ pad2 (sod % 3600 / 60) ++
    [':'] ++ pad2 (sod % 60) ++
    (if us = 0 then [] else '.' :: pad6 us) ++
    "+00:00".toList)

/-- The loop body of `IterableStream.post_process` for one date-time
property: skip falsy values, convert integers (Python booleans are
`int` instances, `True` counting as 1), write anything else back
unchanged. -/
def coerceOne (row : List (String × JVal)) (name : String) :
    List (String × JVal) :=
  match getv row name with
  | none => row
  | some v =>
    if v.truthy then
      match v with
      | .int n => set_item row name (.str (isoOfMillis n))
      | .bool b => set_item row name (.str (isoOfMillis (if b then 1 else 0)))
      | _ => set_item row name v
    else row

/-- `IterableStream.post_process`: apply the coercion to every
property whose schema declares format date-time. -/
def datetime_post_process (dtProps : List String)
    (row : List (String × JVal)) : List (String × JVal) :=
  dtProps.foldl coerceOne row

theorem find?_map_set (t : List (String × JVal)) (k : String) (v : JVal) :
    (t.map (fun p => if p.1 == k then (k, v) else p)).find?
        (fun p => p.1 == k) =
      if (t.find? (fun p => p.1 == k)).isSome then some (k, v) else none := by
  induction t with
  | nil => rfl
  | cons p t ih =>
    by_cases hp : (p.1 == k) = true
    · have h1 : List.find? (fun q => q.1 == k)
          ((k, v) :: t.map (fun p => if p.1 == k then (k, v) else p)) =
          some (k, v) := List.find?_cons_of_pos _ (by simp)
      have h2 : List.find? (fun q => q.1 == k) (p :: t) = some p :=
        List.find?_cons_of_pos _ hp
      rw [List.map_cons, if_pos hp, h1, h2]
      simp
    · have h1 : List.find? (fun q => q.1 == k)
          (p :: t.map (fun p => if p.1 == k then (k, v) else p)) =
          List.find? (fun q => q.1 == k)
            (t.map (fun p => if p.1 == k then (k, v) else p)) :=
        List.find?_cons_of_neg _ hp
      have h2 : List.find? (fun q => q.1 == k) (p :: t) =
          List.find? (fun q => q.1 == k) t :=
        List.find?_cons_of_neg _ hp
      rw [List.map_cons, if_neg hp, h1, h2]
      exact ih

theorem find?_map_set_ne (t : List (String × JVal)) (k k' : String)
    (v : JVal) (h : ¬ k = k') :
    (t.map (fun p => if p.1 == k then (k, v) else p)).find?
        (fun p => p.1 == k') = t.find? (fun p => p.1 == k') := by
  induction t with
  | nil => rfl
  | cons p t ih =>
    by_cases hp : (p.1 == k) = true
    · have hp1 : p.1 = k := by simpa using hp
      have h1 : List.find? (fun q => q.1 == k')
          ((k, v) :: t.map (fun p => if p.1 == k then (k, v) else p)) =
          List.find? (fun q => q.1 == k')
            (t.map (fun p => if p.1 == k then (k, v) else p)) :=
        List.find?_cons_of_neg _ (by simpa using h)
      have h2 : List.find? (fun q => q.1 == k') (p :: t) =
          List.find? (fun q => q.1 == k') t :=
        List.find?_cons_of_neg _ (by rw [hp1]; simpa using h)
      rw [List.map_cons, if_pos hp, h1, h2]
      exact ih
    · by_cases hp' : (p.1 == k') = true
      · have h1 : List.find? (fun q => q.1 == k')
            (p :: t.map (fun p => if p.1 == k then (k, v) else p)) = some p :=
          List.find?_cons_of_pos _ hp'
        have h2 : List.find? (fun q => q.1 == k') (p :: t) = some p :=
          List.find?_cons_of_pos _ hp'
        rw [List.map_cons, if_neg hp, h1, h2]
      · have h1 : List.find? (fun q => q.1 == k')
            (p :: t.map (fun p => if p.1 == k then (k, v) else p)) =
            List.find? (fun q => q.1 == k')
              (t.map (fun p => if p.1 == k then (k, v) else p)) :=
          List.find?_cons_of_neg _ hp'
        have h2 : List.find? (fun q => q.1 == k') (p :: t) =
            List.find? (fun q => q.1 == k') t :=
          List.find?_cons_of_neg _ hp'
        rw [List.map_cons, if_neg hp, h1, h2]
        exact ih

theorem getv_set_item_self (row : List (String × JVal)) (k : String)
    (v : JVal) : getv (set_item row k v) k = some v := by
  unfold set_item
  split
  · rename_i hfound
    rw [getv, find?_map_set, if_pos hfound]
    rfl
  · rename_i hnone
    have hn : List.find? (fun p => p.1 == k) row = none := by
      cases hq : List.find? (fun p => p.1 == k) row with
      | none => rfl
      | some q => rw [hq] at hnone; simp at hnone
    rw [getv, List.find?_append, hn]
    simp [List.find?]

theorem getv_set_item_ne (row : List (String × JVal)) (k k' : String)
    (v : JVal) (h : k' ≠ k) :
    getv (set_item row k v) k' = getv row k' := by
  unfold set_item
  split
  · rw [getv, find?_map_set_ne _ _ _ _ (fun hh => h hh.symm)]
    rfl
  · rw [getv, List.find?_append]
    have hk : ((k : String) == k') = false := by
      simpa using (fun hh => h hh.symm)
    simp [List.find?, hk, getv]


theorem coerceOne_get_none (row : List (String × JVal)) (name : String)
    (h : getv row name = none) : coerceOne row name = row := by
  unfold coerceOne
  rw [h]

theorem coerceOne_get_falsy (row : List (String × JVal)) (name : String)
    (v : JVal) (h : getv row name = some v) (hv : v.truthy = false) :
    coerceOne row name = row := by
  unfold coerceOne
  rw [h]
  simp [hv]

theorem coerceOne_get_int (row : List (String × JVal)) (name : String)
    (n : ℤ) (h : getv row name = some (.int n)) (hn : n ≠ 0) :
    coerceOne row name = set_item row name (.str (isoOfMillis n)) := by
  unfold coerceOne
  rw [h]
  simp [JVal.truthy, hn]

theorem coerceOne_get_str (row : List (String × JVal)) (name : String)
    (s : String) (h : getv row name = some (.str s))
    (hs : s.isEmpty = false) :
    coerceOne row name = set_item row name (.str s) := by
  unfold coerceOne
  rw [h]
  simp [JVal.truthy, hs]

theorem getv_coerceOne_ne (row : List (String × JVal)) (p name : String)
    (h : name ≠ p) : getv (coerceOne row p) name = getv row name := by
  unfold coerceOne
  cases getv row p with
  | none => rfl
  | some v =>
    by_cases hv : v.truthy
    · cases v <;> simp [hv, getv_set_item_ne _ _ _ _ h]
    · simp [hv]

theorem getv_foldl_str (props : List String)
    (row : List (String × JVal)) (name : String) (s : String)
    (h : getv row name = some (.str s)) :
    getv (props.foldl coerceOne row) name = some (.str s) := by
  induction props generalizing row with
  | nil => exact h
  | cons p ps ih =>
    rw [List.foldl_cons]
    refine ih (coerceOne row p) ?_
    by_cases hp : p = name
    · subst hp
      cases hs : s.isEmpty with
      | true =>
        have hsv : (JVal.str s).truthy = false := by simp [JVal.truthy, hs]
        rw [coerceOne_get_falsy row p _ h hsv]
        exact h
      | false =>
        rw [coerceOne_get_str row p s h hs]
        exact getv_set_item_self row p (.str s)
    · rw [getv_coerceOne_ne row p name (fun hh => hp hh.symm)]
      exact h

theorem getv_foldl_falsy (props : List String)
    (row : List (String × JVal)) (name : String) (v : JVal)
    (h : getv row name = some v) (hv : v.truthy = false) :
    getv (props.foldl coerceOne row) name = some v := by
  induction props generalizing row with
  | nil => exact h
  | cons p ps ih =>
    rw [List.foldl_cons]
    refine ih (coerceOne row p) ?_
    by_cases hp : p = name
    · subst hp
      rw [coerceOne_get_falsy row p v h hv]
      exact h
    · rw [getv_coerceOne_ne row p name (fun hh => hp hh.symm)]
      exact h

theorem getv_foldl_none (props : List String)
    (row : List (String × JVal)) (name : String)
    (h : getv row name = none) :
    getv (props.foldl coerceOne row) name = none := by
  induction props generalizing row with
  | nil => exact h
  | cons p ps ih =>
    rw [List.foldl_cons]
    refine ih (coerceOne row p) ?_
    by_cases hp : p = name
    · subst hp
      rw [coerceOne_get_none row p h]
      exact h
    · rw [getv_coerceOne_ne row p name (fun hh => hp hh.symm)]
      exact h

/-- C7 (amended): for a schema field with date-time format, a nonzero
integer value is interpreted as milliseconds since the epoch and
replaced by the ISO-8601 UTC string; string values pass through
unchanged; missing, null, empty-string — and, beyond the claim's
wording, zero — values pass through with no coercion attempted. -/
theorem datetime_coercion_spec (dtProps : List String)
    (row : List (String × JVal)) (name : String) :
    (name ∈ dtProps → ∀ n : ℤ, getv row name = some (.int n) → n ≠ 0 →
      getv (datetime_post_process dtProps row) name =
        some (.str (isoOfMillis n))) ∧
    (∀ s, getv row name = some (.str s) →
      getv (datetime_post_process dtProps row) name = some (.str s)) ∧
    ((getv row name = none ∨ getv row name = some .null ∨
      getv row name = some (.str "") ∨ getv row name = some (.int 0)) →
      getv (datetime_post_process dtProps row) name = getv row name) := by
  refine ⟨?_, ?_, ?_⟩
  · intro hmem n hget hn
    unfold datetime_post_process
    induction dtProps generalizing row with
    | nil => simp at hmem
    | cons p ps ih =>
      rw [List.foldl_cons]
      by_cases hp : p = name
      · subst hp
        rw [coerceOne_get_int row p n hget hn] at *
        exact getv_foldl_str ps _ p (isoOfMillis n)
          (getv_set_item_self row p (.str (isoOfMillis n)))
      · rcases List.mem_cons.mp hmem with hh | hmem2
        · exact absurd hh.symm hp
        · refine ih (coerceOne row p) hmem2 ?_
          rw [getv_coerceOne_ne row p name (fun hh => hp hh.symm)]
          exact hget
  · intro s hget
    exact getv_foldl_str dtProps row name s hget
  · intro hfalsy
    rcases hfalsy with h | h | h | h
    · rw [h]; exact getv_foldl_none dtProps row name h
    · rw [h]; exact getv_foldl_falsy dtProps row name .null h rfl
    · rw [h]; exact getv_foldl_falsy dtProps row name (.str "") h rfl
    · rw [h]; exact getv_foldl_falsy dtProps row name (.int 0) h rfl


/-- Witness for C7: the scenario from the spec — epoch 1700000000000
in a date-time field becomes "2023-11-14T22:13:20+00:00". -/
theorem datetime_coercion_spec_witness :
    getv (datetime_post_process ["createdAt"]
        [("createdAt", JVal.int 1700000000000)]) "createdAt" =
      some (.str "2023-11-14T22:13:20+00:00") := by
  have h := (datetime_coercion_spec ["createdAt"]
    [("createdAt", JVal.int 1700000000000)] "createdAt").1
    (by simp) 1700000000000 (by decide) (by decide)
  rw [h]
  decide

/-- Counterexample for C7 as stated: the integer epoch value 0 is a
numeric epoch value, yet the code passes it through unchanged (it is
falsy) instead of converting it to an ISO-8601 string. -/
theorem datetime_zero_epoch_cex :
    datetime_post_process ["createdAt"] [("createdAt", JVal.int 0)] =
      [("createdAt", JVal.int 0)] ∧
    JVal.int 0 ≠ JVal.str (isoOfMillis 0) := by
  exact ⟨rfl, by decide⟩

/-!  ## CSV header normalization and numeric retyping
(`streams.py`, `ExperimentMetrics.post_process`)

Per column: the header is lower-cased, a literal "/ m" is rewritten to
"per mile", whitespace becomes underscores, remaining non-word
characters are stripped, and the result is camelized with
`humps.camelize` (pyhumps); an empty-string cell becomes None; a cell
whose schema type includes an integer or number kind is cast through
`decimal.Decimal` with invalid text treated as NaN and NaN/infinite
values mapped to None.  Characters are the ASCII payload of the CSV
export. -/

def isSepChar (c : Char) : Bool := decide (c = '-' ∨ c = '_')

/-- The regex word class of `re.sub(r"[\W]", "")` on ASCII text. -/
def isWordChar (c : Char) : Bool :=
  decide ((48 ≤ c.toNat ∧ c.toNat ≤ 57) ∨ (65 ≤ c.toNat ∧ c.toNat ≤ 90) ∨
    (97 ≤ c.toNat ∧ c.toNat ≤ 122) ∨ c.toNat = 95)

/-- The regex class of `re.sub(r"\s", "_")` on ASCII text. -/
def isPySpace (c : Char) : Bool :=
  decide (c.toNat = 32 ∨ (9 ≤ c.toNat ∧ c.toNat ≤ 13))

def isDigitChar (c : Char) : Bool := decide (48 ≤ c.toNat ∧ c.toNat ≤ 57)

def isUpperChar (c : Char) : Bool := decide (65 ≤ c.toNat ∧ c.toNat ≤ 90)

def isLowerChar (c : Char) : Bool := decide (97 ≤ c.toNat ∧ c.toNat ≤ 122)

def isAlphaChar (c : Char) : Bool := isUpperChar c || isLowerChar c

/-- `str.lower()` on ASCII text, per character. -/
def pyLowerChar (c : Char) : Char :=
  if isUpperChar c then Char.ofNat (c.toNat + 32) else c

/-- `str.upper()` on ASCII text, per character. -/
def pyUpperChar (c : Char) : Char :=
  if isLowerChar c then Char.ofNat (c.toNat - 32) else c

def lowerStr (l : List Char) : List Char := l.map pyLowerChar

/-- `str.isupper()`: some cased character and no lower-case one. -/
def pyIsUpper (l : List Char) : Bool := l.any isAlphaChar && !(l.any isLowerChar)

/-- `str.isnumeric()` on ASCII text. -/
def pyIsNumeric (l : List Char) : Bool := !l.isEmpty && l.all isDigitChar

/-- `.replace("/ m", "per mile")`: left-to-right, non-overlapping. -/
def replacePerMile : List Char → List Char
  | '/' :: ' ' :: 'm' :: rest =>
    'p' :: 'e' :: 'r' :: ' ' :: 'm' :: 'i' :: 'l' :: 'e' :: replacePerMile rest
  | c :: rest => c :: replacePerMile rest
  | [] => []

/-- `re.sub(r"\s", "_", s)`. -/
def wsToUnderscore (l : List Char) : List Char :=
  l.map (fun c => if isPySpace c then '_' else c)

/-- `re.sub(r"[\W]", "", s)`. -/
def stripNonWord (l : List Char) : List Char := l.filter isWordChar

/-- Scanner state for the pyhumps `UNDERSCORE_RE` substitution
`(?<=[^\-_])[\-_]+[^\-_]`: at the start / after a separator no match
can begin; after a non-separator a match can begin; `inRun` carries
the separator run seen so far (reversed). -/
inductive UState where
  | start : UState
  | afterNonSep : UState
  | inRun : List Char → UState

/-- The pyhumps substitution `UNDERSCORE_RE.sub(lambda m:
m.group(0)[-1].upper(), s)`: a separator run preceded by a
non-separator and followed by a non-separator collapses to the
upper-cased following character; a trailing run is preserved. -/
def usubCore : UState → List Char → List Char
  | .start, [] => []
  | .afterNonSep, [] => []
  | .inRun p, [] => p.reverse
  | .start, c :: cs =>
    if isSepChar c then c :: usubCore .start cs else c :: usubCore .afterNonSep cs
  | .afterNonSep, c :: cs =>
    if isSepChar c then usubCore (.inRun [c]) cs else c :: usubCore .afterNonSep cs
  | .inRun p, c :: cs =>
    if isSepChar c then usubCore (.inRun (c :: p)) cs
    else pyUpperChar c :: usubCore .afterNonSep cs

/-- `humps.camelize` (pyhumps): numeric and upper-case strings pass
through; otherwise the first character is lower-cased unless the first
two characters are upper-case, and the `UNDERSCORE_RE` substitution is
applied from position one on (no match can start at position zero). -/
def camelize (s : List Char) : List Char :=
  if pyIsNumeric s then s
  else if pyIsUpper s then s
  else
    match s with
    | [] => []
    | c :: rest =>
      (if !pyIsUpper (List.take 2 (c :: rest)) then pyLowerChar c else c) ::
        usubCore (if isSepChar c then .start else .afterNonSep) rest

/-- The header-normalization pipeline of
`ExperimentMetrics.post_process`: lower, "/ m" → "per mile",
whitespace → "_", strip non-word characters, camelize. -/
def normalizeHeader (l : List Char) : List Char :=
  camelize (stripNonWord (wsToUnderscore (replacePerMile (lowerStr l))))

theorem char_toNat_ofNat_small (n : ℕ) (h : n < 55296) :
    (Char.ofNat n).toNat = n := by
  have hv : n.isValidChar := Or.inl h
  unfold Char.ofNat
  rw [dif_pos hv]
  rfl

theorem pyLowerChar_word (c : Char) (h : isWordChar c = true) :
    isWordChar (pyLowerChar c) = true := by
  unfold pyLowerChar
  by_cases hu : isUpperChar c = true
  · rw [if_pos hu]
    have h90 : 65 ≤ c.toNat ∧ c.toNat ≤ 90 := by
      simpa [isUpperChar] using hu
    have hr : (Char.ofNat (c.toNat + 32)).toNat = c.toNat + 32 :=
      char_toNat_ofNat_small _ (by omega)
    simp [isWordChar, hr]
    omega
  · rw [if_neg hu]
    exact h

theorem pyUpperChar_word (c : Char) (h : isWordChar c = true) :
    isWordChar (pyUpperChar c) = true := by
  unfold pyUpperChar
  by_cases hu : isLowerChar c = true
  · rw [if_pos hu]
    have h97 : 97 ≤ c.toNat ∧ c.toNat ≤ 122 := by
      simpa [isLowerChar] using hu
    have hr : (Char.ofNat (c.toNat - 32)).toNat = c.toNat - 32 :=
      char_toNat_ofNat_small _ (by omega)
    simp [isWordChar, hr]
    omega
  · rw [if_neg hu]
    exact h

theorem word_ne_slash (c : Char) (h : isWordChar c = true) : c ≠ '/' := by
  intro hc
  subst hc
  exact absurd h (by decide)

theorem word_not_space (c : Char) (h : isWordChar c = true) :
    isPySpace c = false := by
  simp only [isWordChar, decide_eq_true_eq] at h
  simp only [isPySpace, decide_eq_false_iff_not]
  omega

theorem replacePerMile_no_slash (l : List Char) (h : ∀ c ∈ l, c ≠ '/') :
    replacePerMile l = l := by
  induction l using replacePerMile.induct with
  | case1 rest ih => exact absurd rfl (h '/' (by simp))
  | case2 c rest hne ih =>
    rw [replacePerMile]
    · rw [ih (fun d hd => h d (List.mem_cons_of_mem _ hd))]
    · exact hne
  | case3 => rfl

theorem wsToUnderscore_id (l : List Char) (h : ∀ c ∈ l, isWordChar c = true) :
    wsToUnderscore l = l := by
  unfold wsToUnderscore
  rw [List.map_congr_left
    (fun a ha => by rw [word_not_space a (h a ha)]; rfl : ∀ a ∈ l,
      (if isPySpace a then '_' else a) = a)]
  exact List.map_id l

theorem stripNonWord_id (l : List Char) (h : ∀ c ∈ l, isWordChar c = true) :
    stripNonWord l = l :=
  List.filter_eq_self.mpr h

theorem usubCore_allWord (l : List Char) :
    ∀ st : UState, (∀ c ∈ l, isWordChar c = true) →
    (∀ p, st = .inRun p → ∀ c ∈ p, isWordChar c = true) →
    ∀ c ∈ usubCore st l, isWordChar c = true := by
  induction l with
  | nil =>
    intro st hl hp c hc
    cases st with
    | start => simp [usubCore] at hc
    | afterNonSep => simp [usubCore] at hc
    | inRun p =>
      simp only [usubCore, List.mem_reverse] at hc
      exact hp p rfl c hc
  | cons a t ih =>
    intro st hl hp c hc
    have ha : isWordChar a = true := hl a (by simp)
    have ht : ∀ c ∈ t, isWordChar c = true :=
      fun d hd => hl d (List.mem_cons_of_mem _ hd)
    cases st with
    | start =>
      by_cases hs : isSepChar a = true
      · simp only [usubCore, hs, if_true, List.mem_cons] at hc
        rcases hc with rfl | hc
        · exact ha
        · exact ih .start ht (by intro p hp0; cases hp0) c hc
      · simp only [usubCore, hs, Bool.false_eq_true, if_false, List.mem_cons] at hc
        rcases hc with rfl | hc
        · exact ha
        · exact ih .afterNonSep ht (by intro p hp0; cases hp0) c hc
    | afterNonSep =>
      by_cases hs : isSepChar a = true
      · simp only [usubCore, hs, if_true] at hc
        refine ih (.inRun [a]) ht ?_ c hc
        intro p hp0 d hd
        cases hp0
        simp only [List.mem_singleton] at hd
        subst hd
        exact ha
      · simp only [usubCore, hs, Bool.false_eq_true, if_false, List.mem_cons] at hc
        rcases hc with rfl | hc
        · exact ha
        · exact ih .afterNonSep ht (by intro p hp0; cases hp0) c hc
    | inRun p =>
      by_cases hs : isSepChar a = true
      · simp only [usubCore, hs, if_true] at hc
        refine ih (.inRun (a :: p)) ht ?_ c hc
        intro q hq d hd
        cases hq
        rcases List.mem_cons.mp hd with rfl | hd
        · exact ha
        · exact hp p rfl d hd
      · simp only [usubCore, hs, Bool.false_eq_true, if_false, List.mem_cons] at hc
        rcases hc with rfl | hc
        · exact pyUpperChar_word a ha
        · exact ih .afterNonSep ht (by intro q hq; cases hq) c hc

theorem camelize_allWord (s : List Char)
    (hs : ∀ c ∈ s, isWordChar c = true) :
    ∀ c ∈ camelize s, isWordChar c = true := by
  unfold camelize
  by_cases hn : pyIsNumeric s = true
  · rw [if_pos hn]; exact hs
  · rw [if_neg hn]
    by_cases hu : pyIsUpper s = true
    · rw [if_pos hu]; exact hs
    · rw [if_neg hu]
      cases s with
      | nil => intro c hc; simp at hc
      | cons a t =>
        intro c hc
        rcases List.mem_cons.mp hc with rfl | hc
        · have ha : isWordChar a = true := hs a (by simp)
          cases h2 : pyIsUpper (List.take 2 (a :: t)) with
          | false =>
            simp only [h2, Bool.not_false, if_true]
            exact pyLowerChar_word a ha
          | true =>
            simp only [h2, Bool.not_true, Bool.false_eq_true, if_false]
            exact ha
        · exact usubCore_allWord t _
            (fun d hd => hs d (List.mem_cons_of_mem _ hd))
            (by intro p hp0; split at hp0 <;> cases hp0) c hc

theorem allWord_normalizeHeader (l : List Char) :
    ∀ c ∈ normalizeHeader l, isWordChar c = true := by
  unfold normalizeHeader
  exact camelize_allWord _ (fun c hc => List.of_mem_filter hc)

/-- C5 (amended): header normalization is not idempotent in general; a
second application first lower-cases the camelized key, so it equals
camelizing the lower-cased normalized key, and idempotence holds
exactly when that round trip is the identity (e.g. for single-word
headers), failing whenever camelizing introduced an upper-case
letter. -/
theorem normalize_double_apply_spec (l : List Char) :
    normalizeHeader (normalizeHeader l) =
      camelize (lowerStr (normalizeHeader l)) := by
  have hw : ∀ c ∈ normalizeHeader l, isWordChar c = true :=
    allWord_normalizeHeader l
  have hwl : ∀ c ∈ lowerStr (normalizeHeader l), isWordChar c = true := by
    intro c hc
    obtain ⟨a, ha, rfl⟩ := List.mem_map.mp hc
    exact pyLowerChar_word a (hw a ha)
  conv_lhs => rw [normalizeHeader]
  rw [replacePerMile_no_slash _ (fun c hc => word_ne_slash c (hwl c hc)),
    wsToUnderscore_id _ hwl, stripNonWord_id _ hwl]

/-- Counterexample for C5 as stated: normalizing "Email Open Rate"
gives "emailOpenRate", but normalizing that again gives
"emailopenrate" — the second pass lower-cases the camel humps, so
normalize(normalize(h)) differs from normalize(h). -/
theorem normalize_not_idempotent_cex :
    normalizeHeader (normalizeHeader ("Email Open Rate".toList)) ≠
      normalizeHeader ("Email Open Rate".toList) := by
  decide

/-!  ## Decimal-then-typed-cast numeric conversion
(`streams.py`, `ExperimentMetrics.post_process`)

`decimal.Decimal(value)` on a string: leading/trailing whitespace and
all underscores are removed, then the decimal numeric-string grammar
is parsed case-insensitively; an invalid string raises
`InvalidOperation`, which the source catches and replaces by NaN; NaN
and infinite results become None, finite ones are cast with `int`
(truncation toward zero) or `float` (modelled as the exact rational
value of the decimal). -/

/-- Classification of a decimal numeric string: a finite value as
(negative?, coefficient, exponent), an infinity, or a NaN. -/
inductive DecV where
  | fin : Bool → ℕ → ℤ → DecV
  | inf : DecV
  | nan : DecV
deriving DecidableEq

/-- `str.strip()` on ASCII text. -/
def stripWs (l : List Char) : List Char :=
  ((l.dropWhile isPySpace).reverse.dropWhile isPySpace).reverse

/-- An optional leading sign; true means negative. -/
def readSign : List Char → Bool × List Char
  | '+' :: r => (false, r)
  | '-' :: r => (true, r)
  | r => (false, r)

def digitsVal (ds : List Char) : ℕ :=
  ds.foldl (fun a c => a * 10 + (c.toNat - 48)) 0

/-- The optional exponent part: empty means exponent 0; otherwise
`e`/`E`, an optional sign and a non-empty digit string. -/
def parseExpPart : List Char → Option ℤ
  | [] => some 0
  | c :: r =>
    if c = 'e' ∨ c = 'E' then
      let sr := readSign r
      if sr.2 ≠ [] ∧ sr.2.all isDigitChar then
        some ((if sr.1 then -1 else 1) * (digitsVal sr.2 : ℤ))
      else none
    else none

/-- The numeric value after the sign: `Inf`/`Infinity`,
`NaN`/`sNaN` with an optional digit payload, or a decimal part
(digits, digits-dot-digits, digits-dot, or dot-digits) with an
optional exponent. -/
def parseUnsigned (neg : Bool) (u : List Char) : Option DecV :=
  let lu := lowerStr u
  if lu = "inf".toList ∨ lu = "infinity".toList then some .inf
  else if lu.take 3 = "nan".toList ∧ (lu.drop 3).all isDigitChar then some .nan
  else if lu.take 4 = "snan".toList ∧ (lu.drop 4).all isDigitChar then some .nan
  else
    let ip := u.takeWhile isDigitChar
    let r1 := u.dropWhile isDigitChar
    match r1 with
    | '.' :: r2 =>
      let fp := r2.takeWhile isDigitChar
      let r3 := r2.dropWhile isDigitChar
      if ip = [] ∧ fp = [] then none
      else
        match parseExpPart r3 with
        | some e => some (.fin neg (digitsVal (ip ++ fp)) (e - fp.length))
        | none => none
    | _ =>
      if ip = [] then none
      else
        match parseExpPart r1 with
        | some e => some (.fin neg (digitsVal ip) e)
        | none => none

/-- `decimal.Decimal` applied to a string: `none` models the
`InvalidOperation` raise. -/
def parseDecimal (s : List Char) : Option DecV :=
  let t := (stripWs s).filter (fun c => c ≠ '_')
  let sr := readSign t
  parseUnsigned sr.1 sr.2

/-- The `try: d = Decimal(value) except DecimalException: d =
Decimal(math.nan)` block: an invalid string becomes NaN. -/
def pyDecimal (s : List Char) : DecV :=
  match parseDecimal s with
  | some d => d
  | none => .nan

/-- The exact rational value of a finite decimal. -/
def ratOfParts (neg : Bool) (c : ℕ) (e : ℤ) : ℚ :=
  let mag : ℚ :=
    if 0 ≤ e then (c : ℚ) * ((10 ^ e.toNat : ℕ) : ℚ)
    else (c : ℚ) / ((10 ^ (-e).toNat : ℕ) : ℚ)
  if neg then -mag else mag

/-- `int(d)` on a finite decimal: truncation toward zero. -/
def ratTrunc (q : ℚ) : ℤ := Int.tdiv q.num (q.den : ℤ)

/-- Fueled ⌊log₂⌋ by repeated halving, in 64-bit chunks so that its
recursion depth stays logarithmic; a fuel of n steps suffices for
input n since ⌊log₂ n⌋ ≤ n. -/
def natLog2F : ℕ → ℕ → ℕ
  | 0, _ => 0
  | f + 1, n =>
    if n ≤ 1 then 0
    else if 18446744073709551616 ≤ n then
      natLog2F f (n / 18446744073709551616) + 64
    else natLog2F f (n / 2) + 1

/-- ⌊log₂ n⌋ for n ≥ 1. -/
def natLog2 (n : ℕ) : ℕ := natLog2F n n

/-- 2^t as a rational, for an integer exponent t. -/
def qpow2 (t : ℤ) : ℚ :=
  if 0 ≤ t then ((2 ^ t.toNat : ℕ) : ℚ) else 1 / ((2 ^ (-t).toNat : ℕ) : ℚ)

/-- ⌊log₂ q⌋ for a positive rational: the candidate from the
numerator and denominator bit lengths, corrected by one comparison. -/
def qIlog2 (q : ℚ) : ℤ :=
  let a : ℤ := natLog2 q.num.toNat
  let b : ℤ := natLog2 q.den
  if qpow2 (a - b) ≤ q then a - b else a - b - 1

/-- Round to the nearest integer, ties to even — the IEEE-754 default
rounding used by float conversion. -/
def roundHalfEven (q : ℚ) : ℤ :=
  let w := Int.fdiv q.num q.den
  let r : ℚ := q - (w : ℚ)
  if r < 1 / 2 then w
  else if 1 / 2 < r then w + 1
  else if w % 2 = 0 then w else w + 1

/-- A Python float: a finite IEEE-754 binary64 value (carried as the
exact dyadic rational it denotes) or a signed infinity (`true` is
negative).  NaN never arises on this code path — the source filters
NaN decimals out before the cast — and signed zero is not
distinguished. -/
inductive PyFloat where
  | finite : ℚ → PyFloat
  | inf : Bool → PyFloat
deriving DecidableEq

def PyFloat.isFinite : PyFloat → Bool
  | .finite _ => true
  | .inf _ => false

/-- Round a positive rational to the nearest binary64: values in
[2^1024, ∞) and values that round up to 2^1024 overflow to infinity;
below 2^-1022 the significand degrades to the subnormal grid 2^-1074,
underflowing to zero; otherwise 53 significant bits, ties to even. -/
def roundDoublePos (q : ℚ) : PyFloat :=
  let e := qIlog2 q
  if 1024 ≤ e then .inf false
  else
    let t : ℤ := if e < -1022 then 1074 else 52 - e
    let v : ℚ := (roundHalfEven (q * qpow2 t) : ℚ) / qpow2 t
    if qpow2 1024 ≤ v then .inf false else .finite v

/-- `float(d)` for a finite decimal value: the correctly rounded
IEEE-754 binary64, negative values by symmetry. -/
def roundDouble (q : ℚ) : PyFloat :=
  if q = 0 then .finite 0
  else if 0 < q then roundDoublePos q
  else
    match roundDoublePos (-q) with
    | .finite v => .finite (-v)
    | .inf _ => .inf true

/-- The two casts of the `numeric_typecasts` dict. -/
inductive NumKind where
  | integer : NumKind
  | number : NumKind
deriving DecidableEq

/-- A Python numeric result: an (unbounded) `int`, or an IEEE-754
binary64 `float`. -/
inductive PyNum where
  | int : ℤ → PyNum
  | float : PyFloat → PyNum
deriving DecidableEq

/-- The numeric branch of the `ExperimentMetrics.post_process` loop
body: parse through Decimal with the exception handler inlined, map
NaN and infinite decimals to None, cast finite ones — `int()` exactly
(Python ints are unbounded), `float()` by binary64 rounding, which
can itself overflow to an infinity. -/
def castNumeric (k : NumKind) (s : List Char) : Option PyNum :=
  match pyDecimal s with
  | .nan => none
  | .inf => none
  | .fin neg c e =>
    some (match k with
      | .number => .float (roundDouble (ratOfParts neg c e))
      | .integer => .int (ratTrunc (ratOfParts neg c e)))

/-- The `numeric_typecasts` dispatch: `IntegerType` is checked before
`NumberType`, each by membership of its type name in the declared
type set. -/
def selectCast (tys : List String) : Option NumKind :=
  if "integer" ∈ tys then some .integer
  else if "number" ∈ tys then some .number
  else none

/-- Outcome of one key of the `ExperimentMetrics.post_process` loop:
the key is dropped (popped and never re-added), kept with value None,
kept as a string, or kept as a cast number. -/
inductive CellVal where
  | dropped : CellVal
  | null : CellVal
  | str : List Char → CellVal
  | num : PyNum → CellVal
deriving DecidableEq

/-- One iteration of the `ExperimentMetrics.post_process` loop for a
CSV column `k` with string value `v`: the key is normalized, an empty
value becomes None, a key absent from the schema is dropped, a
numeric-typed value goes through the decimal cast, anything else is
kept as the string.  `tyOf` is the declared schema's property-name →
type-set mapping. -/
def processCell (tyOf : List Char → Option (List String)) (k v : List Char) :
    List Char × CellVal :=
  let nk := normalizeHeader k
  if v = [] then (nk, .null)
  else
    match tyOf nk with
    | none => (nk, .dropped)
    | some tys =>
      match selectCast tys with
      | none => (nk, .str v)
      | some kind =>
        match castNumeric kind v with
        | none => (nk, .null)
        | some pn => (nk, .num pn)

/-- C4 (amended): the decimal-then-typed-cast path never raises — the
exception branch is part of `pyDecimal` — and returns None exactly
when the string is unparseable as a decimal or parses to NaN or an
infinity; a finite decimal is cast exactly for integer-typed fields
(truncation toward zero, Python ints being unbounded), and for
number-typed fields to float(s), the IEEE-754 binary64 nearest its
value under round-half-even — which is an infinity, not a finite
value, when the finite decimal exceeds the double range. -/
theorem csv_numeric_cast_spec (k : NumKind) (s : List Char) :
    (parseDecimal s = none → castNumeric k s = none) ∧
    (parseDecimal s = some .nan → castNumeric k s = none) ∧
    (parseDecimal s = some .inf → castNumeric k s = none) ∧
    (∀ (neg : Bool) (c : ℕ) (e : ℤ), parseDecimal s = some (.fin neg c e) →
      castNumeric k s = some (match k with
        | .number => .float (roundDouble (ratOfParts neg c e))
        | .integer => .int (ratTrunc (ratOfParts neg c e)))) := by
  refine ⟨?_, ?_, ?_, ?_⟩
  · intro h
    unfold castNumeric pyDecimal
    rw [h]
  · intro h
    unfold castNumeric pyDecimal
    rw [h]
  · intro h
    unfold castNumeric pyDecimal
    rw [h]
  · intro neg c e h
    unfold castNumeric pyDecimal
    rw [h]

section

attribute [local semireducible] Rat.mul Rat.inv Rat.sub Rat.add

set_option maxRecDepth 100000

/-- Counterexample for C4 as stated: "1e999" parses to a finite
decimal, so the claim requires a finite value equal to float(s); but
float overflows to positive infinity for it — the program stores an
infinite value, neither None nor finite. -/
theorem csv_numeric_cast_overflow_cex :
    parseDecimal ("1e999".toList) = some (.fin false 1 999) ∧
    castNumeric .number ("1e999".toList) =
      some (.float (.inf false)) ∧
    (PyFloat.inf false).isFinite = false := by
  refine ⟨by decide, by decide, rfl⟩

/-- Witness for C4: "12.5" parses to the finite decimal 125×10⁻¹ and
casts to exactly 25/2 (representable); "0.1" casts to the binary64
nearest 1/10, which differs from 1/10 itself; "12,5x" is unparseable
and casts to None; "NaN" and "-Infinity" cast to None. -/
theorem csv_numeric_cast_spec_witness :
    parseDecimal ("12.5".toList) = some (.fin false 125 (-1)) ∧
    castNumeric .number ("12.5".toList) =
      some (.float (roundDouble (ratOfParts false 125 (-1)))) ∧
    roundDouble (ratOfParts false 125 (-1)) = .finite (25 / 2) ∧
    roundDouble (ratOfParts false 1 (-1)) =
      .finite (3602879701896397 / 36028797018963968) ∧
    roundDouble (ratOfParts false 1 (-1)) ≠ .finite (1 / 10) ∧
    parseDecimal ("12,5x".toList) = none ∧
    castNumeric .integer ("12,5x".toList) = none ∧
    parseDecimal ("NaN".toList) = some .nan ∧
    castNumeric .number ("NaN".toList) = none ∧
    parseDecimal ("-Infinity".toList) = some .inf ∧
    castNumeric .number ("-Infinity".toList) = none :=
  ⟨by decide,
    (csv_numeric_cast_spec .number ("12.5".toList)).2.2.2 false 125 (-1)
      (by decide),
    by decide,
    by decide,
    by decide,
    by decide,
    (csv_numeric_cast_spec .integer ("12,5x".toList)).1 (by decide),
    by decide,
    (csv_numeric_cast_spec .number ("NaN".toList)).2.1 (by decide),
    by decide,
    (csv_numeric_cast_spec .number ("-Infinity".toList)).2.2.1 (by decide)⟩

end

/-- C6: the CSV headers "Email Open Rate" and "Revenue / M Email"
normalize to the schema keys emailOpenRate and revenuePerMileEmail
via lower-casing, the "/ m" → "per mile" rewrite, whitespace →
underscores, non-word stripping and camelization; and every
empty-string cell value becomes None under the loop body, whatever
the schema says. -/
theorem normalize_headers_scenario_spec :
    normalizeHeader ("Email Open Rate".toList) = "emailOpenRate".toList ∧
    normalizeHeader ("Revenue / M Email".toList) =
      "revenuePerMileEmail".toList ∧
    ∀ (tyOf : List Char → Option (List String)) (k : List Char),
      processCell tyOf k [] = (normalizeHeader k, CellVal.null) := by
  refine ⟨by decide, by decide, fun tyOf k => rfl⟩
